import Mathlib

/-!
Verification development for the `rust_json_macro` repository
(`src/main.rs`): an in-memory JSON value model (`enum Json`), scalar
coercions (`impl From<_> for Json`), and the recursive literal builder
(`macro_rules! json!`), shallowly embedded in Lean 4.

Modelling conventions:
* Rust `f64` is embedded as `F64`: either NaN, a signed infinity, or a
  finite value represented by its exact rational value.  IEEE-754 `==`
  identifies `+0.0` with `-0.0`, and the source only ever compares
  floats with `==` (derived `PartialEq`), so the two zeros are collapsed
  into the single finite value `0`.
* Rust integer casts `n as f64` are embedded as `intToF64`, which
  performs the IEEE round-to-nearest, ties-to-even rounding of an
  integer to 53 bits of significand.  Every Rust integer type in the
  source (`u8` … `i128`, `usize`, `isize`) has magnitude below `2^128`,
  far below the `f64` overflow threshold `2^1024`, so the model omits
  the overflow-to-infinity case of `as`.
* `Box<HashMap<String, Json>>` is embedded as an association list of its
  entries.  The `Box` indirection is immaterial.  The hash map's lack of
  intrinsic order is captured by (a) the well-formedness invariant that
  key lists are duplicate-free (hash maps cannot hold duplicate keys),
  and (b) embedding `HashMap`'s `PartialEq` (equal size plus per-key
  lookup of equal values) and `get` directly, neither of which depends
  on entry order for duplicate-free lists.
* The compile-time `json!` macro is embedded, following the spec's own
  design note, as a recursive builder over an explicit literal
  expression tree `Lit` whose productions mirror the four macro rules.
-/

/-- Model of an IEEE-754 binary64 value (`f64`): NaN, a signed infinity,
or a finite value given by its exact rational magnitude (with the two
IEEE zeros collapsed, as `==` identifies them). -/
inductive F64 where
  | nan : F64
  | inf (neg : Bool) : F64
  | finite (val : ℚ) : F64
deriving DecidableEq, Repr

/-- IEEE-754 `==` on `f64` (what Rust's derived `PartialEq` calls for the
`Number` payload): NaN compares unequal to everything, including itself;
infinities compare by sign; finite values compare by exact value. -/
def f64BEq : F64 → F64 → Bool
  | .inf b1, .inf b2 => b1 == b2
  | .finite q1, .finite q2 => q1 == q2
  | _, _ => false

/-- Round the natural number `a` down to a multiple of `2^shift`, rounding
the quotient to nearest with ties to even (the IEEE-754 default rounding
used by Rust's integer-to-float `as` casts). -/
def roundNearestEven (a : ℕ) (shift : ℕ) : ℕ :=
  let q := a / 2 ^ shift
  let r := a % 2 ^ shift
  if 2 * r < 2 ^ shift then q
  else if 2 ^ shift < 2 * r then q + 1
  else if q % 2 = 0 then q else q + 1

/-- Base-2 logarithm with an explicit structural fuel, so that the
definition reduces inside the kernel; `log2Fuel fuel n = Nat.log2 n`
whenever `n ≤ fuel` (proved below as `log2N_eq_log2`). -/
def log2Fuel : ℕ → ℕ → ℕ
  | 0, _ => 0
  | fuel + 1, n => if 2 ≤ n then log2Fuel fuel (n / 2) + 1 else 0

/-- `⌊log₂ n⌋` (and `0` at `0`), computed with sufficient fuel. -/
def log2N (n : ℕ) : ℕ := log2Fuel n n

/-- Model of the Rust cast `n as f64` for an integer `n` (the body of every
`From` impl generated by `impl_from_num_for_json!`): exact when the
magnitude fits in 53 significand bits, otherwise rounded to nearest with
ties to even.  All source integer types fit below `2^128 < 2^1024`, so no
overflow to infinity can occur. -/
def intToF64 (n : ℤ) : F64 :=
  let a := n.natAbs
  let k := log2N a
  if k < 53 then .finite (n : ℚ)
  else
    let s := k - 52
    let m := roundNearestEven a s
    .finite ((((if n < 0 then -(m : ℤ) else (m : ℤ)) * 2 ^ s : ℤ) : ℚ))

/-- The `Json` value model (`enum Json` in the source): a closed tagged
union with six variants.  `Array` holds its elements in order;
`Object(Box<HashMap<String, Json>>)` is embedded as the association list
of the map's entries (see the module docstring). -/
inductive Json where
  | null : Json
  | boolean (b : Bool) : Json
  | number (x : F64) : Json
  | string (s : String) : Json
  | array (elements : List Json) : Json
  | object (pairs : List (String × Json)) : Json

/-- `impl From<bool> for Json`: `Json::Boolean(b)`. -/
def Json.fromBool (b : Bool) : Json := .boolean b

/-- `impl From<String> for Json`: `Json::String(s)` (already owned). -/
def Json.fromString (s : String) : Json := .string s

/-- `impl From<&str> for Json`: `Json::String(s.to_string())` — an owned
copy of the borrowed text, which holds the same characters. -/
def Json.fromStr (s : String) : Json := .string s

/-- The `From` impl generated by `impl_from_num_for_json!` for each of the
twelve integer types `u8 i8 u16 i16 u32 i32 u64 i64 u128 i128 usize isize`:
`Json::Number(n as f64)`. -/
def Json.fromInt (n : ℤ) : Json := .number (intToF64 n)

/-- The generated `From<f64>` impl: `Json::Number(n as f64)`, where the
cast is the identity on `f64`. -/
def Json.fromF64 (x : F64) : Json := .number x

/-- The generated `From<f32>` impl: `Json::Number(n as f64)`.  Every `f32`
value is exactly representable as an `f64` and the widening cast is exact,
so an `f32` input is embedded as the `F64` it widens to. -/
def Json.fromF32 (x : F64) : Json := .number x

/-- Pattern inspection: extract the `Boolean` payload, signalling a
mismatched variant with `none` (the `match` arms of the test suite). -/
def Json.asBoolean : Json → Option Bool
  | .boolean b => some b
  | _ => none

/-- Pattern inspection: extract the `Number` payload if present. -/
def Json.asNumber : Json → Option F64
  | .number x => some x
  | _ => none

/-- Pattern inspection: extract the `String` payload if present. -/
def Json.asString : Json → Option String
  | .string s => some s
  | _ => none

/-- The key list of an association list of object entries. -/
def keysOf (m : List (String × Json)) : List String := m.map Prod.fst

/-- `HashMap::get(k)`: look up the value stored under `k`.  On a
duplicate-free entry list (the only lists a hash map can denote) this is
the unique binding of `k`, if any. -/
def lookupJ (k : String) : List (String × Json) → Option Json
  | [] => none
  | (k2, v) :: rest => if k2 = k then some v else lookupJ k rest

/-- The last binding of `k` in a pair list (the binding that survives
repeated `HashMap::insert`). -/
def lookupLastJ (k : String) : List (String × Json) → Option Json
  | [] => none
  | (k2, v) :: rest =>
    match lookupLastJ k rest with
    | some v2 => some v2
    | none => if k2 = k then some v else none

/-- Decide that a key list has no duplicates (the intrinsic invariant of
`HashMap` key sets). -/
def allDistinct : List String → Bool
  | [] => true
  | k :: rest => !(rest.contains k) && allDistinct rest

/-- `HashMap::insert(k, v)` on the entry-list model: replace the binding
of `k` if present, otherwise add the new entry. -/
def insertPair (k : String) (v : Json) : List (String × Json) → List (String × Json)
  | [] => [(k, v)]
  | (k2, v2) :: rest => if k2 = k then (k, v) :: rest else (k2, v2) :: insertPair k v rest

/-- `vec.into_iter().collect::<HashMap<_, _>>()` starting from the map
`m`: insert each listed pair in order, so a later binding of a key
silently overwrites an earlier one. -/
def collectInto (m : List (String × Json)) : List (String × Json) → List (String × Json)
  | [] => m
  | p :: ps => collectInto (insertPair p.1 p.2 m) ps

/-- The object rule of `json!`: collect the listed `(key, value)` pairs
into a `HashMap`, starting from the empty map. -/
def collectPairs (ps : List (String × Json)) : List (String × Json) :=
  collectInto [] ps

mutual
/-- Structural equality on `Json` (the derived `PartialEq` of the
source): same variant and recursively equal payloads.  `Number` payloads
compare by IEEE `==`; `Array` payloads compare positionally; `Object`
payloads compare as `HashMap`s do — equal size, and every entry of the
left map found under the same key in the right map with an equal value. -/
def jsonBEq : Json → Json → Bool
  | .null, .null => true
  | .boolean b1, .boolean b2 => b1 == b2
  | .number x1, .number x2 => f64BEq x1 x2
  | .string s1, .string s2 => s1 == s2
  | .array xs, .array ys => jsonListBEq xs ys
  | .object m1, .object m2 => m1.length == m2.length && jsonPairsSubBEq m1 m2
  | _, _ => false

/-- Positional equality of `Vec<Json>` payloads (derived `PartialEq` on
`Vec`). -/
def jsonListBEq : List Json → List Json → Bool
  | [], [] => true
  | x :: xs, y :: ys => jsonBEq x y && jsonListBEq xs ys
  | _, _ => false

/-- `HashMap` equality, one-sided part: every entry of the first map is
present, with an equal value, in the second
(`self.iter().all(|(k, v)| other.get(k).map_or(false, |w| *v == *w))`). -/
def jsonPairsSubBEq : List (String × Json) → List (String × Json) → Bool
  | [], _ => true
  | (k, v) :: rest, m2 =>
    (match lookupJ k m2 with
     | some v2 => jsonBEq v v2
     | none => false) && jsonPairsSubBEq rest m2
end

mutual
/-- Well-formedness: the intrinsic invariant every value of the Rust
`Json` type satisfies — each object's key list is duplicate-free, because
a `HashMap` cannot hold two entries with the same key. -/
def Json.wf : Json → Bool
  | .null => true
  | .boolean _ => true
  | .number _ => true
  | .string _ => true
  | .array xs => jsonListWf xs
  | .object m => allDistinct (m.map Prod.fst) && jsonPairsWf m

/-- All elements of an array payload are well-formed. -/
def jsonListWf : List Json → Bool
  | [] => true
  | x :: xs => x.wf && jsonListWf xs

/-- All values of an object payload are well-formed. -/
def jsonPairsWf : List (String × Json) → Bool
  | [] => true
  | p :: ps => p.2.wf && jsonPairsWf ps
end

/-- Whether an `f64` value is NaN. -/
def F64.isNaN : F64 → Bool
  | .nan => true
  | .inf _ => false
  | .finite _ => false

mutual
/-- No `Number` payload anywhere in the tree is NaN. -/
def Json.noNaN : Json → Bool
  | .null => true
  | .boolean _ => true
  | .number x => !x.isNaN
  | .string _ => true
  | .array xs => jsonListNoNaN xs
  | .object m => jsonPairsNoNaN m

/-- No element of an array payload contains NaN. -/
def jsonListNoNaN : List Json → Bool
  | [] => true
  | x :: xs => x.noNaN && jsonListNoNaN xs

/-- No value of an object payload contains NaN. -/
def jsonPairsNoNaN : List (String × Json) → Bool
  | [] => true
  | p :: ps => p.2.noNaN && jsonPairsNoNaN ps
end

/-- The literal expression tree the `json!` macro consumes, following the
spec's design note that the compile-time grammar is to be read as a
recursive builder over an explicit expression tree.  Scalar leaves carry
the native value handed to `Json::from`; keys are the owned text that
`$key.to_string()` produces. -/
inductive Lit where
  | nullLit : Lit
  | boolLit (b : Bool) : Lit
  | strLit (s : String) : Lit
  | intLit (n : ℤ) : Lit
  | floatLit (x : F64) : Lit
  | arrLit (elements : List Lit) : Lit
  | objLit (pairs : List (String × Lit)) : Lit

mutual
/-- The `json!` macro's four productions, in their textual priority
order: the reserved word `null` builds `Json::Null`; a bracketed list
builds `Json::Array` of the recursively built elements in listed order; a
braced pair list builds `Json::Object` by collecting the recursively
built pairs into a `HashMap`; any other expression is scalar-coerced via
`Json::from`. -/
def build : Lit → Json
  | .nullLit => .null
  | .arrLit es => .array (buildList es)
  | .objLit ps => .object (collectPairs (buildPairs ps))
  | .boolLit b => Json.fromBool b
  | .strLit s => Json.fromStr s
  | .intLit n => Json.fromInt n
  | .floatLit x => Json.fromF64 x

/-- `vec![json!(e1), …, json!(en)]`: build each array element in order. -/
def buildList : List Lit → List Json
  | [] => []
  | e :: es => build e :: buildList es

/-- `vec![($key.to_string(), json!($value)), …]`: build each object pair
in listed order. -/
def buildPairs : List (String × Lit) → List (String × Json)
  | [] => []
  | p :: ps => (p.1, build p.2) :: buildPairs ps
end

mutual
/-- No float leaf of a literal is NaN.  Rust numeric literals are always
finite, so every literal written as source text satisfies this; only an
arbitrary `f64` expression spliced into the macro can violate it. -/
def Lit.noNaN : Lit → Bool
  | .nullLit => true
  | .boolLit _ => true
  | .strLit _ => true
  | .intLit _ => true
  | .floatLit x => !x.isNaN
  | .arrLit es => litListNoNaN es
  | .objLit ps => litPairsNoNaN ps

/-- All elements of a literal array are NaN-free. -/
def litListNoNaN : List Lit → Bool
  | [] => true
  | e :: es => e.noNaN && litListNoNaN es

/-- All values of a literal object are NaN-free. -/
def litPairsNoNaN : List (String × Lit) → Bool
  | [] => true
  | p :: ps => p.2.noNaN && litPairsNoNaN ps
end

/-! ### Lemmas about the float model -/

theorem log2Fuel_eq_log2 : ∀ (fuel n : ℕ), n ≤ fuel → log2Fuel fuel n = Nat.log2 n := by
  intro fuel
  induction fuel with
  | zero =>
    intro n hn
    have h0 : n = 0 := Nat.le_zero.mp hn
    subst h0
    rw [Nat.log2]
    rfl
  | succ fuel ih =>
    intro n hn
    rw [log2Fuel, Nat.log2]
    by_cases h2 : 2 ≤ n
    · have hdiv : n / 2 ≤ fuel := by
        have hlt : n / 2 < n := Nat.div_lt_self (by omega) (by omega)
        omega
      rw [if_pos h2, if_pos h2, ih (n / 2) hdiv]
    · rw [if_neg h2, if_neg h2]

theorem log2N_eq_log2 (n : ℕ) : log2N n = Nat.log2 n :=
  log2Fuel_eq_log2 n n (Nat.le_refl n)

/-- Exactness of the integer-to-`f64` cast below `2^53`: rounding is the
identity there. -/
theorem intToF64_exact (n : ℤ) (h : n.natAbs ≤ 2 ^ 53) :
    intToF64 n = .finite (n : ℚ) := by
  rcases lt_or_eq_of_le h with hlt | heq
  · have hk : log2N n.natAbs < 53 := by
      rcases Nat.eq_zero_or_pos n.natAbs with h0 | hpos
      · rw [h0]; decide
      · rw [log2N_eq_log2]
        exact (Nat.log2_lt (Nat.pos_iff_ne_zero.mp hpos)).mpr hlt
    rw [intToF64]
    simp only [hk, if_true]
  · rcases Int.natAbs_eq_iff.mp heq with h1 | h1 <;> subst h1 <;> decide

/-- The integer cast never produces NaN (or an infinity): every Rust
integer type's values land in the finite range of `f64`. -/
theorem intToF64_finite (n : ℤ) : ∃ q : ℚ, intToF64 n = .finite q := by
  rw [intToF64]
  dsimp only
  split
  · exact ⟨_, rfl⟩
  · exact ⟨_, rfl⟩

theorem f64BEq_refl (x : F64) (hx : x ≠ .nan) : f64BEq x x = true := by
  cases x with
  | nan => exact absurd rfl hx
  | inf b => simp [f64BEq]
  | finite q => simp [f64BEq]

theorem f64BEq_symm (x y : F64) (h : f64BEq x y = true) : f64BEq y x = true := by
  cases x <;> cases y <;> simp_all [f64BEq]

theorem f64BEq_trans (x y z : F64) (h1 : f64BEq x y = true) (h2 : f64BEq y z = true) :
    f64BEq x z = true := by
  cases x <;> cases y <;> cases z <;> simp_all [f64BEq]

/-! ### Lemmas about the entry-list model of `HashMap` -/

theorem allDistinct_iff_nodup : ∀ (l : List String), allDistinct l = true ↔ l.Nodup := by
  intro l
  induction l with
  | nil => simp [allDistinct]
  | cons k rest ih =>
    rw [allDistinct]
    simp only [Bool.and_eq_true, Bool.not_eq_true', List.nodup_cons, ih]
    constructor
    · rintro ⟨h1, h2⟩
      exact ⟨by simpa using h1, h2⟩
    · rintro ⟨h1, h2⟩
      exact ⟨by simpa using h1, h2⟩

theorem lookupJ_eq_some_mem : ∀ (m : List (String × Json)) (k : String) (v : Json),
    lookupJ k m = some v → (k, v) ∈ m := by
  intro m
  induction m with
  | nil => intro k v h; exact absurd h (by simp [lookupJ])
  | cons p rest ih =>
    intro k v h
    obtain ⟨k2, v2⟩ := p
    by_cases hk : k2 = k
    · subst hk
      rw [lookupJ, if_pos rfl] at h
      injection h with h
      subst h
      exact List.mem_cons_self _ _
    · rw [lookupJ, if_neg hk] at h
      exact List.mem_cons_of_mem _ (ih k v h)

theorem mem_keys_of_lookupJ (m : List (String × Json)) (k : String) (v : Json)
    (h : lookupJ k m = some v) : k ∈ keysOf m := by
  rw [keysOf]
  exact List.mem_map_of_mem Prod.fst (lookupJ_eq_some_mem m k v h)

theorem exists_lookupJ_of_mem_keys : ∀ (m : List (String × Json)) (k : String),
    k ∈ keysOf m → ∃ v, lookupJ k m = some v := by
  intro m
  induction m with
  | nil => intro k h; simp [keysOf] at h
  | cons p rest ih =>
    intro k h
    obtain ⟨k2, v2⟩ := p
    by_cases hk : k2 = k
    · exact ⟨v2, by rw [lookupJ, if_pos hk]⟩
    · rw [keysOf, List.map_cons, List.mem_cons] at h
      rcases h with h | h
      · exact absurd h.symm hk
      · obtain ⟨v, hv⟩ := ih k h
        exact ⟨v, by rw [lookupJ, if_neg hk]; exact hv⟩

theorem mem_lookupJ_eq_some : ∀ (m : List (String × Json)) (k : String) (v : Json),
    (keysOf m).Nodup → (k, v) ∈ m → lookupJ k m = some v := by
  intro m
  induction m with
  | nil => intro k v _ h; simp at h
  | cons p rest ih =>
    intro k v hd hm
    obtain ⟨k2, v2⟩ := p
    rw [keysOf, List.map_cons, List.nodup_cons] at hd
    rcases List.mem_cons.mp hm with h1 | h1
    · cases h1
      rw [lookupJ, if_pos rfl]
    · have hk2 : k2 ≠ k := by
        intro he
        subst he
        exact hd.1 (List.mem_map.mpr ⟨(k2, v), h1, rfl⟩)
      rw [lookupJ, if_neg hk2]
      exact ih k v hd.2 h1

theorem lookupJ_insertPair : ∀ (m : List (String × Json)) (k : String) (v : Json) (k2 : String),
    lookupJ k2 (insertPair k v m) = if k = k2 then some v else lookupJ k2 m := by
  intro m
  induction m with
  | nil => intro k v k2; rw [insertPair]; rfl
  | cons p rest ih =>
    intro k v k2
    obtain ⟨k3, v3⟩ := p
    by_cases h3 : k3 = k
    · subst h3
      rw [insertPair, if_pos rfl, lookupJ]
      by_cases h32 : k3 = k2
      · subst h32; rw [if_pos rfl, if_pos rfl]
      · rw [if_neg h32, if_neg h32, lookupJ, if_neg h32]
    · rw [insertPair, if_neg h3, lookupJ, lookupJ]
      by_cases h32 : k3 = k2
      · subst h32
        have : k ≠ k3 := fun he => h3 he.symm
        rw [if_pos rfl, if_pos rfl, if_neg this]
      · rw [if_neg h32, if_neg h32, ih]

theorem insertPair_of_not_mem_keys : ∀ (m : List (String × Json)) (k : String) (v : Json),
    k ∉ keysOf m → insertPair k v m = m ++ [(k, v)] := by
  intro m
  induction m with
  | nil => intro k v _; rw [insertPair]; rfl
  | cons p rest ih =>
    intro k v h
    obtain ⟨k2, v2⟩ := p
    rw [keysOf, List.map_cons, List.mem_cons] at h
    push_neg at h
    rw [insertPair, if_neg (fun he => h.1 he.symm), ih k v h.2]
    rfl

theorem keysOf_insertPair_of_mem : ∀ (m : List (String × Json)) (k : String) (v : Json),
    k ∈ keysOf m → keysOf (insertPair k v m) = keysOf m := by
  intro m
  induction m with
  | nil => intro k v h; simp [keysOf] at h
  | cons p rest ih =>
    intro k v h
    obtain ⟨k2, v2⟩ := p
    by_cases h2 : k2 = k
    · subst h2
      rw [insertPair, if_pos rfl, keysOf, keysOf, List.map_cons, List.map_cons]
    · rw [keysOf, List.map_cons, List.mem_cons] at h
      rcases h with h | h
      · exact absurd h.symm h2
      · rw [insertPair, if_neg h2, keysOf, List.map_cons]
        have hr : keysOf (insertPair k v rest) = keysOf rest := ih k v h
        rw [keysOf, keysOf] at hr
        rw [hr, keysOf, List.map_cons]

theorem mem_keys_insertPair : ∀ (m : List (String × Json)) (k1 : String) (v : Json) (k : String),
    k ∈ keysOf (insertPair k1 v m) ↔ k = k1 ∨ k ∈ keysOf m := by
  intro m k1 v k
  by_cases h : k1 ∈ keysOf m
  · rw [keysOf_insertPair_of_mem m k1 v h]
    constructor
    · exact fun hk => Or.inr hk
    · rintro (hk | hk)
      · exact hk ▸ h
      · exact hk
  · rw [insertPair_of_not_mem_keys m k1 v h, keysOf, List.map_append, List.mem_append]
    simp only [List.map_cons, List.map_nil, List.mem_singleton]
    rw [keysOf]
    tauto

theorem lookupJ_collectInto : ∀ (l m : List (String × Json)) (k : String),
    lookupJ k (collectInto m l) =
      match lookupLastJ k l with
      | some v => some v
      | none => lookupJ k m := by
  intro l
  induction l with
  | nil => intro m k; rw [collectInto, lookupLastJ]
  | cons p rest ih =>
    intro m k
    obtain ⟨k2, v2⟩ := p
    rw [collectInto, ih, lookupLastJ]
    cases hl : lookupLastJ k rest with
    | some v => rfl
    | none =>
      rw [lookupJ_insertPair]
      by_cases h : k2 = k
      · rw [if_pos h, if_pos h]
      · rw [if_neg h, if_neg h]

theorem lookupLastJ_append : ∀ (l1 l2 : List (String × Json)) (k : String),
    lookupLastJ k (l1 ++ l2) =
      match lookupLastJ k l2 with
      | some v => some v
      | none => lookupLastJ k l1 := by
  intro l1
  induction l1 with
  | nil => intro l2 k; rw [List.nil_append, lookupLastJ]; cases lookupLastJ k l2 <;> rfl
  | cons p t ih =>
    intro l2 k
    obtain ⟨k2, v2⟩ := p
    rw [List.cons_append, lookupLastJ, ih, lookupLastJ]
    cases hl2 : lookupLastJ k l2 with
    | some v => rfl
    | none => cases lookupLastJ k t <;> rfl

theorem lookupLastJ_of_not_mem : ∀ (l : List (String × Json)) (k : String),
    k ∉ keysOf l → lookupLastJ k l = none := by
  intro l
  induction l with
  | nil => intro k _; rw [lookupLastJ]
  | cons p t ih =>
    intro k hk
    obtain ⟨k2, v2⟩ := p
    rw [keysOf, List.map_cons, List.mem_cons] at hk
    push_neg at hk
    rw [lookupLastJ, ih k hk.2, if_neg (fun he => hk.1 he.symm)]

theorem mem_keys_collectInto : ∀ (l m : List (String × Json)) (k : String),
    k ∈ keysOf (collectInto m l) ↔ k ∈ keysOf m ∨ k ∈ keysOf l := by
  intro l
  induction l with
  | nil => intro m k; rw [collectInto]; simp [keysOf]
  | cons p rest ih =>
    intro m k
    obtain ⟨k2, v2⟩ := p
    rw [collectInto, ih, mem_keys_insertPair]
    simp only [keysOf, List.map_cons, List.mem_cons]
    tauto

theorem nodup_keys_collectInto : ∀ (l m : List (String × Json)),
    (keysOf m).Nodup → (keysOf (collectInto m l)).Nodup := by
  intro l
  induction l with
  | nil => intro m h; rw [collectInto]; exact h
  | cons p rest ih =>
    intro m h
    obtain ⟨k2, v2⟩ := p
    rw [collectInto]
    refine ih _ ?_
    by_cases hm : k2 ∈ keysOf m
    · rw [keysOf_insertPair_of_mem m k2 v2 hm]; exact h
    · rw [insertPair_of_not_mem_keys m k2 v2 hm, keysOf, List.map_append]
      rw [List.nodup_append]
      refine ⟨h, List.nodup_singleton _, ?_⟩
      intro a ha hb
      simp only [List.map_cons, List.map_nil, List.mem_singleton] at hb
      subst hb
      exact hm ha

theorem collectInto_eq_append : ∀ (l m : List (String × Json)),
    (keysOf m ++ keysOf l).Nodup → collectInto m l = m ++ l := by
  intro l
  induction l with
  | nil => intro m _; rw [collectInto, List.append_nil]
  | cons p rest ih =>
    intro m h
    obtain ⟨k2, v2⟩ := p
    simp only [keysOf, List.map_cons] at h
    rw [List.nodup_append] at h
    obtain ⟨hm, hcons, hdisj⟩ := h
    have hk2m : k2 ∉ keysOf m := fun hmem => hdisj hmem (List.mem_cons_self _ _)
    rw [collectInto, insertPair_of_not_mem_keys m k2 v2 hk2m, ih]
    · rw [List.append_assoc, List.singleton_append]
    · rw [keysOf, List.map_append, List.nodup_append]
      rw [List.nodup_cons] at hcons
      refine ⟨?_, hcons.2, ?_⟩
      · rw [List.nodup_append]
        refine ⟨hm, List.nodup_singleton _, ?_⟩
        intro a ha hb
        simp only [keysOf, List.map_cons, List.map_nil, List.mem_singleton] at hb
        subst hb
        exact hk2m ha
      · intro a ha hb
        rw [List.mem_append] at ha
        rcases ha with ha | ha
        · exact hdisj ha (List.mem_cons_of_mem _ hb)
        · simp only [keysOf, List.map_cons, List.map_nil, List.mem_singleton] at ha
          subst ha
          exact hcons.1 hb

theorem collectPairs_of_nodup (l : List (String × Json)) (h : (keysOf l).Nodup) :
    collectPairs l = l := by
  rw [collectPairs, collectInto_eq_append l []]
  · rfl
  · rw [keysOf]; simpa using h

theorem nodup_keys_collectPairs (l : List (String × Json)) :
    (keysOf (collectPairs l)).Nodup :=
  nodup_keys_collectInto l [] (by rw [keysOf]; simp)

theorem lookupJ_collectPairs (l : List (String × Json)) (k : String) :
    lookupJ k (collectPairs l) = lookupLastJ k l := by
  rw [collectPairs, lookupJ_collectInto]
  cases lookupLastJ k l <;> rfl

theorem length_collectPairs (l : List (String × Json)) :
    (collectPairs l).length = ((keysOf l).toFinset).card := by
  have hkeys : (keysOf (collectPairs l)).toFinset = (keysOf l).toFinset := by
    apply Finset.ext
    intro a
    rw [List.mem_toFinset, List.mem_toFinset, collectPairs, mem_keys_collectInto]
    rw [keysOf]
    simp
  have hlen : (collectPairs l).length = (keysOf (collectPairs l)).length := by
    rw [keysOf, List.length_map]
  rw [hlen, ← List.toFinset_card_of_nodup (nodup_keys_collectPairs l), hkeys]

/-! ### Structural induction through the nested list payloads -/

/-- Strong induction over `Json` trees: the inductive step for a
composite gets the property for every child. -/
def Json.inductionOn (P : Json → Prop)
    (hnull : P .null)
    (hbool : ∀ b, P (.boolean b))
    (hnum : ∀ x, P (.number x))
    (hstr : ∀ s, P (.string s))
    (harr : ∀ xs, (∀ j ∈ xs, P j) → P (.array xs))
    (hobj : ∀ m, (∀ p ∈ m, P p.2) → P (.object m)) :
    ∀ j, P j
  | .null => hnull
  | .boolean b => hbool b
  | .number x => hnum x
  | .string s => hstr s
  | .array xs => harr xs (fun j hj =>
      Json.inductionOn P hnull hbool hnum hstr harr hobj j)
  | .object m => hobj m (fun p hp =>
      Json.inductionOn P hnull hbool hnum hstr harr hobj p.2)
termination_by j => sizeOf j
decreasing_by
  · have h1 := List.sizeOf_lt_of_mem hj
    simp only [Json.array.sizeOf_spec]
    omega
  · have h1 := List.sizeOf_lt_of_mem hp
    have h2 : sizeOf p.2 < sizeOf p := by
      obtain ⟨a, b⟩ := p
      simp only [Prod.mk.sizeOf_spec]
      omega
    simp only [Json.object.sizeOf_spec]
    omega

/-! ### Characterizations of the equality function -/

theorem jsonPairsSubBEq_iff : ∀ (m1 m2 : List (String × Json)),
    jsonPairsSubBEq m1 m2 = true ↔
      ∀ p ∈ m1, ∃ v2, lookupJ p.1 m2 = some v2 ∧ jsonBEq p.2 v2 = true := by
  intro m1 m2
  induction m1 with
  | nil => simp [jsonPairsSubBEq]
  | cons p rest ih =>
    obtain ⟨k, v⟩ := p
    rw [jsonPairsSubBEq, Bool.and_eq_true, ih]
    constructor
    · rintro ⟨h1, h2⟩ q hq
      rcases List.mem_cons.mp hq with hq | hq
      · cases hq
        cases hl : lookupJ k m2 with
        | some v2 => rw [hl] at h1; exact ⟨v2, rfl, h1⟩
        | none => rw [hl] at h1; exact absurd h1 (by simp)
      · exact h2 q hq
    · intro h
      constructor
      · obtain ⟨v2, hl, hb⟩ := h (k, v) (List.mem_cons_self _ _)
        rw [hl]
        exact hb
      · exact fun q hq => h q (List.mem_cons_of_mem _ hq)

theorem jsonListBEq_iff_forall2 : ∀ (xs ys : List Json),
    jsonListBEq xs ys = true ↔ List.Forall₂ (fun a b => jsonBEq a b = true) xs ys := by
  intro xs
  induction xs with
  | nil => intro ys; cases ys <;> simp [jsonListBEq]
  | cons x xs ih =>
    intro ys
    cases ys with
    | nil => simp [jsonListBEq]
    | cons y ys =>
      rw [jsonListBEq, Bool.and_eq_true, ih]
      simp [List.forall₂_cons]

theorem jsonListWf_iff : ∀ (xs : List Json),
    jsonListWf xs = true ↔ ∀ j ∈ xs, j.wf = true := by
  intro xs
  induction xs with
  | nil => simp [jsonListWf]
  | cons x xs ih => rw [jsonListWf, Bool.and_eq_true, ih]; simp

theorem jsonPairsWf_iff : ∀ (m : List (String × Json)),
    jsonPairsWf m = true ↔ ∀ p ∈ m, p.2.wf = true := by
  intro m
  induction m with
  | nil => simp [jsonPairsWf]
  | cons p rest ih => rw [jsonPairsWf, Bool.and_eq_true, ih]; simp

theorem jsonListNoNaN_iff : ∀ (xs : List Json),
    jsonListNoNaN xs = true ↔ ∀ j ∈ xs, j.noNaN = true := by
  intro xs
  induction xs with
  | nil => simp [jsonListNoNaN]
  | cons x xs ih => rw [jsonListNoNaN, Bool.and_eq_true, ih]; simp

theorem jsonPairsNoNaN_iff : ∀ (m : List (String × Json)),
    jsonPairsNoNaN m = true ↔ ∀ p ∈ m, p.2.noNaN = true := by
  intro m
  induction m with
  | nil => simp [jsonPairsNoNaN]
  | cons p rest ih => rw [jsonPairsNoNaN, Bool.and_eq_true, ih]; simp

/-! ### The derived equality as an equivalence (and its NaN failure) -/

theorem jsonListBEq_refl (xs : List Json) (h : ∀ j ∈ xs, jsonBEq j j = true) :
    jsonListBEq xs xs = true := by
  induction xs with
  | nil => rw [jsonListBEq]
  | cons x t ih =>
    rw [jsonListBEq, Bool.and_eq_true]
    exact ⟨h x (List.mem_cons_self _ _), ih (fun j hj => h j (List.mem_cons_of_mem _ hj))⟩

/-- Reflexivity of the derived equality on NaN-free well-formed trees. -/
theorem jsonBEq_refl : ∀ (j : Json), j.wf = true → j.noNaN = true → jsonBEq j j = true := by
  refine Json.inductionOn
    (fun j => j.wf = true → j.noNaN = true → jsonBEq j j = true) ?_ ?_ ?_ ?_ ?_ ?_
  · intro _ _; rw [jsonBEq]
  · intro b _ _; rw [jsonBEq]; exact beq_self_eq_true b
  · intro x _ hn
    cases x with
    | nan => simp [Json.noNaN, F64.isNaN] at hn
    | inf b => rw [jsonBEq]; exact f64BEq_refl _ (by simp)
    | finite q => rw [jsonBEq]; exact f64BEq_refl _ (by simp)
  · intro s _ _; rw [jsonBEq]; exact beq_self_eq_true s
  · intro xs IH hwf hn
    rw [Json.wf] at hwf
    rw [Json.noNaN] at hn
    rw [jsonBEq]
    exact jsonListBEq_refl xs (fun j hj =>
      IH j hj ((jsonListWf_iff xs).mp hwf j hj) ((jsonListNoNaN_iff xs).mp hn j hj))
  · intro m IH hwf hn
    rw [Json.wf, Bool.and_eq_true] at hwf
    rw [Json.noNaN] at hn
    rw [jsonBEq, Bool.and_eq_true]
    refine ⟨beq_self_eq_true _, ?_⟩
    rw [jsonPairsSubBEq_iff]
    intro p hp
    refine ⟨p.2, ?_, ?_⟩
    · exact mem_lookupJ_eq_some m p.1 p.2 ((allDistinct_iff_nodup _).mp hwf.1) (by simpa using hp)
    · exact IH p hp ((jsonPairsWf_iff m).mp hwf.2 p hp) ((jsonPairsNoNaN_iff m).mp hn p hp)

theorem jsonListBEq_symm (xs : List Json)
    (IH : ∀ x ∈ xs, x.wf = true → ∀ y, y.wf = true →
      jsonBEq x y = true → jsonBEq y x = true) :
    ∀ ys, (∀ x ∈ xs, x.wf = true) → (∀ y ∈ ys, y.wf = true) →
      jsonListBEq xs ys = true → jsonListBEq ys xs = true := by
  induction xs with
  | nil =>
    intro ys _ _ h
    cases ys with
    | nil => exact h
    | cons y u => simp [jsonListBEq] at h
  | cons x t ih =>
    intro ys hwx hwy h
    cases ys with
    | nil => simp [jsonListBEq] at h
    | cons y u =>
      rw [jsonListBEq, Bool.and_eq_true] at h
      rw [jsonListBEq, Bool.and_eq_true]
      refine ⟨?_, ?_⟩
      · exact IH x (List.mem_cons_self _ _) (hwx x (List.mem_cons_self _ _)) y
          (hwy y (List.mem_cons_self _ _)) h.1
      · exact ih (fun a ha => IH a (List.mem_cons_of_mem _ ha)) u
          (fun a ha => hwx a (List.mem_cons_of_mem _ ha))
          (fun a ha => hwy a (List.mem_cons_of_mem _ ha)) h.2

/-- Symmetry of the derived equality on well-formed trees. -/
theorem jsonBEq_symm : ∀ (j1 : Json), j1.wf = true → ∀ (j2 : Json), j2.wf = true →
    jsonBEq j1 j2 = true → jsonBEq j2 j1 = true := by
  refine Json.inductionOn
    (fun j1 => j1.wf = true → ∀ j2, j2.wf = true →
      jsonBEq j1 j2 = true → jsonBEq j2 j1 = true) ?_ ?_ ?_ ?_ ?_ ?_
  · intro _ j2 _ h
    cases j2 <;> simp_all [jsonBEq]
  · intro b _ j2 _ h
    cases j2 <;> simp_all [jsonBEq]
  · intro x _ j2 _ h
    cases j2 with
    | number y => rw [jsonBEq] at h ⊢; exact f64BEq_symm x y h
    | null => simp [jsonBEq] at h
    | boolean b => simp [jsonBEq] at h
    | string s => simp [jsonBEq] at h
    | array xs => simp [jsonBEq] at h
    | object m => simp [jsonBEq] at h
  · intro s _ j2 _ h
    cases j2 <;> simp_all [jsonBEq]
  · intro xs IH hw1 j2 hw2 h
    cases j2 with
    | array ys =>
      rw [Json.wf] at hw1 hw2
      rw [jsonBEq] at h ⊢
      exact jsonListBEq_symm xs IH ys ((jsonListWf_iff _).mp hw1) ((jsonListWf_iff _).mp hw2) h
    | null => simp [jsonBEq] at h
    | boolean b => simp [jsonBEq] at h
    | number y => simp [jsonBEq] at h
    | string s => simp [jsonBEq] at h
    | object m => simp [jsonBEq] at h
  · intro m1 IH hw1 j2 hw2 h
    cases j2 with
    | object m2 =>
      rw [Json.wf, Bool.and_eq_true] at hw1 hw2
      rw [jsonBEq, Bool.and_eq_true] at h ⊢
      obtain ⟨hlen, hsub⟩ := h
      have hlen2 : m1.length = m2.length := by simpa using hlen
      have hnd1 : (keysOf m1).Nodup := (allDistinct_iff_nodup _).mp hw1.1
      have hnd2 : (keysOf m2).Nodup := (allDistinct_iff_nodup _).mp hw2.1
      rw [jsonPairsSubBEq_iff] at hsub
      have hsubkeys : ∀ k, k ∈ keysOf m1 → k ∈ keysOf m2 := by
        intro k hk
        obtain ⟨v, hv⟩ := exists_lookupJ_of_mem_keys m1 k hk
        obtain ⟨v2, hl2, _⟩ := hsub (k, v) (lookupJ_eq_some_mem m1 k v hv)
        exact mem_keys_of_lookupJ m2 k v2 hl2
      have hfin : (keysOf m1).toFinset = (keysOf m2).toFinset := by
        apply Finset.eq_of_subset_of_card_le
        · intro a ha
          rw [List.mem_toFinset] at ha ⊢
          exact hsubkeys a ha
        · rw [List.toFinset_card_of_nodup hnd1, List.toFinset_card_of_nodup hnd2]
          rw [keysOf, keysOf, List.length_map, List.length_map]
          omega
      have hkeys21 : ∀ k, k ∈ keysOf m2 → k ∈ keysOf m1 := by
        intro k hk
        rw [← List.mem_toFinset, ← hfin, List.mem_toFinset] at hk
        exact hk
      refine ⟨?_, ?_⟩
      · rw [← hlen2]; exact beq_self_eq_true _
      · rw [jsonPairsSubBEq_iff]
        intro q hq
        have hqk : q.1 ∈ keysOf m1 :=
          hkeys21 q.1 (List.mem_map.mpr ⟨q, hq, rfl⟩)
        obtain ⟨v1, hv1⟩ := exists_lookupJ_of_mem_keys m1 q.1 hqk
        have hv1mem : (q.1, v1) ∈ m1 := lookupJ_eq_some_mem m1 q.1 v1 hv1
        obtain ⟨v2, hl2, hbeq⟩ := hsub (q.1, v1) hv1mem
        have hq2 : lookupJ q.1 m2 = some q.2 :=
          mem_lookupJ_eq_some m2 q.1 q.2 hnd2 (by simpa using hq)
        rw [hq2] at hl2
        injection hl2 with hl2
        subst hl2
        refine ⟨v1, hv1, ?_⟩
        have hwv1 : v1.wf = true := (jsonPairsWf_iff m1).mp hw1.2 (q.1, v1) hv1mem
        have hwq2 : q.2.wf = true := (jsonPairsWf_iff m2).mp hw2.2 q hq
        exact IH (q.1, v1) hv1mem hwv1 q.2 hwq2 hbeq
    | null => simp [jsonBEq] at h
    | boolean b => simp [jsonBEq] at h
    | number y => simp [jsonBEq] at h
    | string s => simp [jsonBEq] at h
    | array ys => simp [jsonBEq] at h

theorem jsonListBEq_trans (xs : List Json)
    (IH : ∀ x ∈ xs, ∀ y z, jsonBEq x y = true → jsonBEq y z = true → jsonBEq x z = true) :
    ∀ ys zs, jsonListBEq xs ys = true → jsonListBEq ys zs = true →
      jsonListBEq xs zs = true := by
  induction xs with
  | nil =>
    intro ys zs h1 h2
    cases ys with
    | nil => exact h2
    | cons y u => simp [jsonListBEq] at h1
  | cons x t ih =>
    intro ys zs h1 h2
    cases ys with
    | nil => simp [jsonListBEq] at h1
    | cons y u =>
      cases zs with
      | nil => simp [jsonListBEq] at h2
      | cons z w =>
        rw [jsonListBEq, Bool.and_eq_true] at h1 h2 ⊢
        refine ⟨?_, ?_⟩
        · exact IH x (List.mem_cons_self _ _) y z h1.1 h2.1
        · exact ih (fun a ha => IH a (List.mem_cons_of_mem _ ha)) u w h1.2 h2.2

/-- Transitivity of the derived equality, with no well-formedness needed. -/
theorem jsonBEq_trans : ∀ (j1 j2 j3 : Json), jsonBEq j1 j2 = true →
    jsonBEq j2 j3 = true → jsonBEq j1 j3 = true := by
  refine Json.inductionOn
    (fun j1 => ∀ j2 j3, jsonBEq j1 j2 = true → jsonBEq j2 j3 = true →
      jsonBEq j1 j3 = true) ?_ ?_ ?_ ?_ ?_ ?_
  · intro j2 j3 h1 h2
    cases j2 <;> cases j3 <;> simp_all [jsonBEq]
  · intro b j2 j3 h1 h2
    cases j2 <;> cases j3 <;> simp_all [jsonBEq]
  · intro x j2 j3 h1 h2
    cases j2 with
    | number y =>
      cases j3 with
      | number z =>
        rw [jsonBEq] at h1 h2 ⊢
        exact f64BEq_trans x y z h1 h2
      | null => simp [jsonBEq] at h2
      | boolean b => simp [jsonBEq] at h2
      | string s => simp [jsonBEq] at h2
      | array ys => simp [jsonBEq] at h2
      | object m => simp [jsonBEq] at h2
    | null => simp [jsonBEq] at h1
    | boolean b => simp [jsonBEq] at h1
    | string s => simp [jsonBEq] at h1
    | array ys => simp [jsonBEq] at h1
    | object m => simp [jsonBEq] at h1
  · intro s j2 j3 h1 h2
    cases j2 <;> cases j3 <;> simp_all [jsonBEq]
  · intro xs IH j2 j3 h1 h2
    cases j2 with
    | array ys =>
      cases j3 with
      | array zs =>
        rw [jsonBEq] at h1 h2 ⊢
        exact jsonListBEq_trans xs IH ys zs h1 h2
      | null => simp [jsonBEq] at h2
      | boolean b => simp [jsonBEq] at h2
      | number y => simp [jsonBEq] at h2
      | string s => simp [jsonBEq] at h2
      | object m => simp [jsonBEq] at h2
    | null => simp [jsonBEq] at h1
    | boolean b => simp [jsonBEq] at h1
    | number y => simp [jsonBEq] at h1
    | string s => simp [jsonBEq] at h1
    | object m => simp [jsonBEq] at h1
  · intro m1 IH j2 j3 h1 h2
    cases j2 with
    | object m2 =>
      cases j3 with
      | object m3 =>
        rw [jsonBEq, Bool.and_eq_true] at h1 h2 ⊢
        obtain ⟨hlen1, hsub1⟩ := h1
        obtain ⟨hlen2, hsub2⟩ := h2
        have he1 : m1.length = m2.length := by simpa using hlen1
        have he2 : m2.length = m3.length := by simpa using hlen2
        refine ⟨by rw [he1, he2]; exact beq_self_eq_true _, ?_⟩
        rw [jsonPairsSubBEq_iff] at hsub1 hsub2 ⊢
        intro p hp
        obtain ⟨v2, hl2, hb12⟩ := hsub1 p hp
        obtain ⟨v3, hl3, hb23⟩ := hsub2 (p.1, v2) (lookupJ_eq_some_mem m2 p.1 v2 hl2)
        exact ⟨v3, hl3, IH p hp v2 v3 hb12 hb23⟩
      | null => simp [jsonBEq] at h2
      | boolean b => simp [jsonBEq] at h2
      | number y => simp [jsonBEq] at h2
      | string s => simp [jsonBEq] at h2
      | array zs => simp [jsonBEq] at h2
    | null => simp [jsonBEq] at h1
    | boolean b => simp [jsonBEq] at h1
    | number y => simp [jsonBEq] at h1
    | string s => simp [jsonBEq] at h1
    | array ys => simp [jsonBEq] at h1

/-! ### Lemmas about the builder -/

theorem buildList_eq_map : ∀ (es : List Lit), buildList es = es.map build := by
  intro es
  induction es with
  | nil => rw [buildList, List.map_nil]
  | cons e t ih => rw [buildList, List.map_cons, ih]

theorem buildPairs_eq_map : ∀ (ps : List (String × Lit)),
    buildPairs ps = ps.map (fun p => (p.1, build p.2)) := by
  intro ps
  induction ps with
  | nil => rw [buildPairs, List.map_nil]
  | cons p t ih => rw [buildPairs, List.map_cons, ih]

/-- Strong induction over literal expression trees. -/
def Lit.inductionOn (P : Lit → Prop)
    (hnull : P .nullLit)
    (hbool : ∀ b, P (.boolLit b))
    (hstr : ∀ s, P (.strLit s))
    (hint : ∀ n, P (.intLit n))
    (hfloat : ∀ x, P (.floatLit x))
    (harr : ∀ es, (∀ e ∈ es, P e) → P (.arrLit es))
    (hobj : ∀ ps, (∀ p ∈ ps, P p.2) → P (.objLit ps)) :
    ∀ e, P e
  | .nullLit => hnull
  | .boolLit b => hbool b
  | .strLit s => hstr s
  | .intLit n => hint n
  | .floatLit x => hfloat x
  | .arrLit es => harr es (fun e he =>
      Lit.inductionOn P hnull hbool hstr hint hfloat harr hobj e)
  | .objLit ps => hobj ps (fun p hp =>
      Lit.inductionOn P hnull hbool hstr hint hfloat harr hobj p.2)
termination_by e => sizeOf e
decreasing_by
  · have h1 := List.sizeOf_lt_of_mem he
    simp only [Lit.arrLit.sizeOf_spec]
    omega
  · have h1 := List.sizeOf_lt_of_mem hp
    have h2 : sizeOf p.2 < sizeOf p := by
      obtain ⟨a, b⟩ := p
      simp only [Prod.mk.sizeOf_spec]
      omega
    simp only [Lit.objLit.sizeOf_spec]
    omega

theorem mem_insertPair : ∀ (m : List (String × Json)) (k : String) (v : Json)
    (p : String × Json), p ∈ insertPair k v m → p = (k, v) ∨ p ∈ m := by
  intro m
  induction m with
  | nil => intro k v p hp; rw [insertPair] at hp; simpa using hp
  | cons q rest ih =>
    intro k v p hp
    obtain ⟨k2, v2⟩ := q
    by_cases h2 : k2 = k
    · rw [insertPair, if_pos h2] at hp
      rcases List.mem_cons.mp hp with hp | hp
      · exact Or.inl hp
      · exact Or.inr (List.mem_cons_of_mem _ hp)
    · rw [insertPair, if_neg h2] at hp
      rcases List.mem_cons.mp hp with hp | hp
      · exact Or.inr (hp ▸ List.mem_cons_self _ _)
      · rcases ih k v p hp with hp | hp
        · exact Or.inl hp
        · exact Or.inr (List.mem_cons_of_mem _ hp)

theorem mem_collectInto : ∀ (l m : List (String × Json)) (p : String × Json),
    p ∈ collectInto m l → p ∈ m ∨ p ∈ l := by
  intro l
  induction l with
  | nil => intro m p hp; rw [collectInto] at hp; exact Or.inl hp
  | cons q rest ih =>
    intro m p hp
    rw [collectInto] at hp
    rcases ih _ p hp with hp | hp
    · rcases mem_insertPair m q.1 q.2 p hp with hp | hp
      · exact Or.inr (hp ▸ List.mem_cons_self _ _)
      · exact Or.inl hp
    · exact Or.inr (List.mem_cons_of_mem _ hp)

theorem mem_collectPairs (l : List (String × Json)) (p : String × Json)
    (hp : p ∈ collectPairs l) : p ∈ l := by
  rcases mem_collectInto l [] p hp with h | h
  · simp at h
  · exact h

theorem build_nullLit : build .nullLit = Json.null := rfl

theorem build_boolLit (b : Bool) : build (.boolLit b) = Json.fromBool b := rfl

theorem build_strLit (s : String) : build (.strLit s) = Json.fromStr s := rfl

theorem build_intLit (n : ℤ) : build (.intLit n) = Json.fromInt n := rfl

theorem build_floatLit (x : F64) : build (.floatLit x) = Json.fromF64 x := rfl

theorem build_arrLit (es : List Lit) : build (.arrLit es) = Json.array (buildList es) := rfl

theorem build_objLit (ps : List (String × Lit)) :
    build (.objLit ps) = Json.object (collectPairs (buildPairs ps)) := rfl

/-- Every tree the builder produces is well-formed: all of its objects
have duplicate-free key lists, because they come out of a `HashMap`. -/
theorem build_wf : ∀ (e : Lit), (build e).wf = true := by
  refine Lit.inductionOn (fun e => (build e).wf = true) ?_ ?_ ?_ ?_ ?_ ?_ ?_
  · show (build .nullLit).wf = true
    rw [build_nullLit, Json.wf]
  · intro b; rw [build_boolLit, Json.fromBool, Json.wf]
  · intro s; rw [build_strLit, Json.fromStr, Json.wf]
  · intro n; rw [build_intLit, Json.fromInt, Json.wf]
  · intro x; rw [build_floatLit, Json.fromF64, Json.wf]
  · intro es IH
    rw [build_arrLit, Json.wf, jsonListWf_iff, buildList_eq_map]
    intro j hj
    obtain ⟨e, he, rfl⟩ := List.mem_map.mp hj
    exact IH e he
  · intro ps IH
    rw [build_objLit, Json.wf, Bool.and_eq_true]
    refine ⟨(allDistinct_iff_nodup _).mpr (nodup_keys_collectPairs _), ?_⟩
    rw [jsonPairsWf_iff]
    intro p hp
    have hmem := mem_collectPairs _ p hp
    rw [buildPairs_eq_map] at hmem
    obtain ⟨q, hq, hqe⟩ := List.mem_map.mp hmem
    have : p.2 = build q.2 := by rw [← hqe]
    rw [this]
    exact IH q hq

theorem litListNoNaN_iff : ∀ (es : List Lit),
    litListNoNaN es = true ↔ ∀ e ∈ es, e.noNaN = true := by
  intro es
  induction es with
  | nil => simp [litListNoNaN]
  | cons e t ih => rw [litListNoNaN, Bool.and_eq_true, ih]; simp

theorem litPairsNoNaN_iff : ∀ (ps : List (String × Lit)),
    litPairsNoNaN ps = true ↔ ∀ p ∈ ps, p.2.noNaN = true := by
  intro ps
  induction ps with
  | nil => simp [litPairsNoNaN]
  | cons p t ih => rw [litPairsNoNaN, Bool.and_eq_true, ih]; simp

/-- A NaN-free literal builds to a NaN-free tree: the only NaN source is
a float leaf, since integer casts always produce finite floats. -/
theorem build_noNaN : ∀ (e : Lit), e.noNaN = true → (build e).noNaN = true := by
  refine Lit.inductionOn (fun e => e.noNaN = true → (build e).noNaN = true) ?_ ?_ ?_ ?_ ?_ ?_ ?_
  · intro _; rw [build_nullLit, Json.noNaN]
  · intro b _; rw [build_boolLit, Json.fromBool, Json.noNaN]
  · intro s _; rw [build_strLit, Json.fromStr, Json.noNaN]
  · intro n _
    rw [build_intLit, Json.fromInt, Json.noNaN]
    obtain ⟨q, hq⟩ := intToF64_finite n
    rw [hq, F64.isNaN]
    rfl
  · intro x hx
    rw [Lit.noNaN] at hx
    rw [build_floatLit, Json.fromF64, Json.noNaN]
    exact hx
  · intro es IH hn
    rw [Lit.noNaN, litListNoNaN_iff] at hn
    rw [build_arrLit, Json.noNaN, jsonListNoNaN_iff, buildList_eq_map]
    intro j hj
    obtain ⟨e, he, rfl⟩ := List.mem_map.mp hj
    exact IH e he (hn e he)
  · intro ps IH hn
    rw [Lit.noNaN, litPairsNoNaN_iff] at hn
    rw [build_objLit, Json.noNaN, jsonPairsNoNaN_iff]
    intro p hp
    have hmem := mem_collectPairs _ p hp
    rw [buildPairs_eq_map] at hmem
    obtain ⟨q, hq, hqe⟩ := List.mem_map.mp hmem
    have : p.2 = build q.2 := by rw [← hqe]
    rw [this]
    exact IH q hq (hn q hq)

theorem jsonListBEq_get? : ∀ (xs ys : List Json), jsonListBEq xs ys = true →
    ∀ (i : ℕ) (v1 v2 : Json), xs.get? i = some v1 → ys.get? i = some v2 →
      jsonBEq v1 v2 = true := by
  intro xs
  induction xs with
  | nil => intro ys h i v1 v2 h1 h2; simp [List.get?] at h1
  | cons x t ih =>
    intro ys h i v1 v2 h1 h2
    cases ys with
    | nil => simp [jsonListBEq] at h
    | cons y u =>
      rw [jsonListBEq, Bool.and_eq_true] at h
      cases i with
      | zero =>
        rw [List.get?] at h1 h2
        injection h1 with h1
        injection h2 with h2
        subst h1
        subst h2
        exact h.1
      | succ n =>
        rw [List.get?] at h1 h2
        exact ih u h.2 n v1 v2 h1 h2

theorem keysOf_buildPairs (ps : List (String × Lit)) :
    keysOf (buildPairs ps) = ps.map Prod.fst := by
  rw [buildPairs_eq_map, keysOf, List.map_map]
  rfl

theorem buildPairs_append (a b : List (String × Lit)) :
    buildPairs (a ++ b) = buildPairs a ++ buildPairs b := by
  rw [buildPairs_eq_map, buildPairs_eq_map, buildPairs_eq_map, List.map_append]

theorem buildPairs_cons (p : String × Lit) (t : List (String × Lit)) :
    buildPairs (p :: t) = (p.1, build p.2) :: buildPairs t := by
  rw [buildPairs_eq_map, buildPairs_eq_map, List.map_cons]

theorem lookupLastJ_dup_shape (r1 r2 r3 : List (String × Json)) (k : String) (w1 w2 : Json)
    (h3 : k ∉ keysOf r3) :
    lookupLastJ k (r1 ++ (k, w1) :: (r2 ++ (k, w2) :: r3)) = some w2 := by
  have hinner2 : lookupLastJ k ((k, w2) :: r3) = some w2 := by
    rw [lookupLastJ, lookupLastJ_of_not_mem r3 k h3, if_pos rfl]
  have hmid : lookupLastJ k (r2 ++ (k, w2) :: r3) = some w2 := by
    rw [lookupLastJ_append, hinner2]
  have hinner1 : lookupLastJ k ((k, w1) :: (r2 ++ (k, w2) :: r3)) = some w2 := by
    rw [lookupLastJ, hmid]
  rw [lookupLastJ_append, hinner1]

theorem length_collectPairs_dup_shape (r1 r2 r3 : List (String × Json)) (k : String)
    (w1 w2 : Json)
    (hnd : (keysOf (r1 ++ r2 ++ r3)).Nodup) (hk : k ∉ keysOf (r1 ++ r2 ++ r3)) :
    (collectPairs (r1 ++ (k, w1) :: (r2 ++ (k, w2) :: r3))).length
      = (r1 ++ (k, w1) :: (r2 ++ (k, w2) :: r3)).length - 1 := by
  rw [length_collectPairs]
  have hset : (keysOf (r1 ++ (k, w1) :: (r2 ++ (k, w2) :: r3))).toFinset
      = insert k (keysOf (r1 ++ r2 ++ r3)).toFinset := by
    apply Finset.ext
    intro a
    simp only [keysOf, List.map_append, List.map_cons, List.mem_toFinset, List.mem_append,
      List.mem_cons, Finset.mem_insert]
    tauto
  rw [hset, Finset.card_insert_of_not_mem (by rw [List.mem_toFinset]; exact hk),
    List.toFinset_card_of_nodup hnd]
  simp only [keysOf, List.map_append, List.length_append, List.length_map, List.length_cons]
  omega

/-- Two hash maps holding permuted entry lists (with duplicate-free keys
and NaN-free values) compare equal. -/
theorem jsonBEq_object_perm (m1 m2 : List (String × Json)) (hperm : m1.Perm m2)
    (hnd : (keysOf m1).Nodup)
    (hwf : ∀ p ∈ m1, (p.2 : Json).wf = true)
    (hnn : ∀ p ∈ m1, (p.2 : Json).noNaN = true) :
    jsonBEq (.object m1) (.object m2) = true := by
  have hnd2 : (keysOf m2).Nodup := ((hperm.map Prod.fst).nodup_iff).mp hnd
  rw [jsonBEq, Bool.and_eq_true]
  refine ⟨?_, ?_⟩
  · rw [hperm.length_eq]; exact beq_self_eq_true _
  · rw [jsonPairsSubBEq_iff]
    intro p hp
    refine ⟨p.2, ?_, ?_⟩
    · exact mem_lookupJ_eq_some m2 p.1 p.2 hnd2 (by simpa using hperm.mem_iff.mp hp)
    · exact jsonBEq_refl p.2 (hwf p hp) (hnn p hp)

/-! ### Concrete inputs for the end-to-end scenario -/

/-- The five `Number` values `[1.0, 2.0, 3.0, 43.0, 5.0]`. -/
def elemsJson : List Json :=
  [.number (.finite 1), .number (.finite 2), .number (.finite 3),
   .number (.finite 43), .number (.finite 5)]

/-- The literal of `main`: `{ "width": 100, "height": 480.0,
"elements": [1, 2, 3, 43, 5], "dummy": { "overview": true } }`
(where `width` is the spliced `i32` variable holding `100`). -/
def descLit : Lit :=
  .objLit [("width", .intLit 100), ("height", .floatLit (.finite 480)),
           ("elements", .arrLit [.intLit 1, .intLit 2, .intLit 3, .intLit 43, .intLit 5]),
           ("dummy", .objLit [("overview", .boolLit true)])]

/-- The object entries that `json!` builds for `descLit`. -/
def descPairs : List (String × Json) :=
  [("width", .number (.finite 100)), ("height", .number (.finite 480)),
   ("elements", .array elemsJson),
   ("dummy", .object [("overview", .boolean true)])]

/-! ### The claims -/

/-- C1: every supported scalar coercion produces exactly the
corresponding variant with the input as payload — `bool` to `Boolean`,
owned and borrowed text to `String` (owned copy), every numeric type to
`Number` via the cast to float64 — it never fails, and extracting the
variant back returns exactly the direct variant construction's payload. -/
theorem coercion_roundtrip :
    (∀ b : Bool, Json.fromBool b = .boolean b ∧ (Json.fromBool b).asBoolean = some b)
    ∧ (∀ s : String, Json.fromString s = .string s ∧ (Json.fromString s).asString = some s)
    ∧ (∀ s : String, Json.fromStr s = .string s ∧ (Json.fromStr s).asString = some s)
    ∧ (∀ n : ℤ, Json.fromInt n = .number (intToF64 n)
        ∧ (Json.fromInt n).asNumber = some (intToF64 n))
    ∧ (∀ x : F64, Json.fromF32 x = .number x ∧ (Json.fromF32 x).asNumber = some x)
    ∧ (∀ x : F64, Json.fromF64 x = .number x ∧ (Json.fromF64 x).asNumber = some x) :=
  ⟨fun _ => ⟨rfl, rfl⟩, fun _ => ⟨rfl, rfl⟩, fun _ => ⟨rfl, rfl⟩, fun _ => ⟨rfl, rfl⟩,
   fun _ => ⟨rfl, rfl⟩, fun _ => ⟨rfl, rfl⟩⟩

/-- C2: an object literal repeating the key `k` (all other keys distinct)
builds to an `Object` with one entry fewer than the listed pairs, in
which `k` is silently bound to the later value only. -/
theorem duplicate_key_last_write_wins :
    ∀ (qs1 qs2 qs3 : List (String × Lit)) (k : String) (v1 v2 : Lit),
      ((qs1 ++ qs2 ++ qs3).map Prod.fst).Nodup →
      k ∉ (qs1 ++ qs2 ++ qs3).map Prod.fst →
      jsonBEq (build v1) (build v2) = false →
      build (.objLit (qs1 ++ (k, v1) :: (qs2 ++ (k, v2) :: qs3)))
          = .object (collectPairs (buildPairs (qs1 ++ (k, v1) :: (qs2 ++ (k, v2) :: qs3))))
        ∧ (collectPairs (buildPairs (qs1 ++ (k, v1) :: (qs2 ++ (k, v2) :: qs3)))).length
            = (qs1 ++ (k, v1) :: (qs2 ++ (k, v2) :: qs3)).length - 1
        ∧ lookupJ k (collectPairs (buildPairs (qs1 ++ (k, v1) :: (qs2 ++ (k, v2) :: qs3))))
            = some (build v2) := by
  intro qs1 qs2 qs3 k v1 v2 hnd hk _
  have hexp : buildPairs (qs1 ++ (k, v1) :: (qs2 ++ (k, v2) :: qs3))
      = buildPairs qs1 ++ (k, build v1) :: (buildPairs qs2 ++ (k, build v2) :: buildPairs qs3) := by
    rw [buildPairs_append, buildPairs_cons, buildPairs_append, buildPairs_cons]
  have hndb : (keysOf (buildPairs qs1 ++ buildPairs qs2 ++ buildPairs qs3)).Nodup := by
    rw [keysOf, List.map_append, List.map_append]
    rw [show (List.map Prod.fst (buildPairs qs1) : List String) = keysOf (buildPairs qs1) from rfl,
      show (List.map Prod.fst (buildPairs qs2) : List String) = keysOf (buildPairs qs2) from rfl,
      show (List.map Prod.fst (buildPairs qs3) : List String) = keysOf (buildPairs qs3) from rfl]
    rw [keysOf_buildPairs, keysOf_buildPairs, keysOf_buildPairs]
    rw [List.map_append, List.map_append] at hnd
    exact hnd
  have hkb : k ∉ keysOf (buildPairs qs1 ++ buildPairs qs2 ++ buildPairs qs3) := by
    rw [keysOf, List.map_append, List.map_append]
    rw [show (List.map Prod.fst (buildPairs qs1) : List String) = keysOf (buildPairs qs1) from rfl,
      show (List.map Prod.fst (buildPairs qs2) : List String) = keysOf (buildPairs qs2) from rfl,
      show (List.map Prod.fst (buildPairs qs3) : List String) = keysOf (buildPairs qs3) from rfl]
    rw [keysOf_buildPairs, keysOf_buildPairs, keysOf_buildPairs]
    rw [List.map_append, List.map_append] at hk
    exact hk
  refine ⟨build_objLit _, ?_, ?_⟩
  · rw [hexp, length_collectPairs_dup_shape _ _ _ _ _ _ hndb hkb]
    rw [buildPairs_eq_map, buildPairs_eq_map, buildPairs_eq_map]
    simp only [List.length_append, List.length_cons, List.length_map]
  · rw [hexp, lookupJ_collectPairs]
    apply lookupLastJ_dup_shape
    rw [keysOf_buildPairs]
    rw [List.map_append, List.map_append, List.mem_append, List.mem_append] at hk
    push_neg at hk
    exact hk.2

/-- C2 witness: for the literal whose only pairs are `k: 1, k: 2`, the
built object is `{k: 2.0}` of size 1. -/
theorem duplicate_key_last_write_wins_witness :
    ((([] : List (String × Lit)) ++ [] ++ []).map Prod.fst).Nodup
    ∧ "k" ∉ (([] : List (String × Lit)) ++ [] ++ []).map Prod.fst
    ∧ jsonBEq (build (.intLit 1)) (build (.intLit 2)) = false
    ∧ (build (.objLit ([] ++ ("k", Lit.intLit 1) :: ([] ++ ("k", Lit.intLit 2) :: [])))
          = .object (collectPairs (buildPairs
              ([] ++ ("k", Lit.intLit 1) :: ([] ++ ("k", Lit.intLit 2) :: []))))
        ∧ (collectPairs (buildPairs
              ([] ++ ("k", Lit.intLit 1) :: ([] ++ ("k", Lit.intLit 2) :: [])))).length
            = ([] ++ ("k", Lit.intLit 1) :: ([] ++ ("k", Lit.intLit 2) :: [])).length - 1
        ∧ lookupJ "k" (collectPairs (buildPairs
              ([] ++ ("k", Lit.intLit 1) :: ([] ++ ("k", Lit.intLit 2) :: []))))
            = some (build (.intLit 2))) :=
  ⟨by simp, by simp, by decide,
   duplicate_key_last_write_wins [] [] [] "k" (.intLit 1) (.intLit 2)
     (by simp) (by simp) (by decide)⟩

/-- C3 counterexample: the claim's reflexivity fails on the code — a
`Number` holding NaN does not compare equal to itself, because the
derived equality uses exact IEEE float64 comparison. -/
theorem equality_refl_fails_on_nan :
    jsonBEq (.number .nan) (.number .nan) = false := rfl

/-- C3 (amended): structural equality is symmetric on well-formed trees
and transitive on all trees, and it is reflexive on well-formed trees
none of whose `Number` payloads is NaN; reflexivity fails exactly at NaN
payloads, per exact IEEE float64 equality. -/
theorem equality_equivalence_nan_free :
    (∀ j : Json, j.wf = true → j.noNaN = true → jsonBEq j j = true)
    ∧ (∀ j1 j2 : Json, j1.wf = true → j2.wf = true →
        jsonBEq j1 j2 = true → jsonBEq j2 j1 = true)
    ∧ (∀ j1 j2 j3 : Json, jsonBEq j1 j2 = true → jsonBEq j2 j3 = true →
        jsonBEq j1 j3 = true) :=
  ⟨jsonBEq_refl, fun j1 j2 h1 h2 h => jsonBEq_symm j1 h1 j2 h2 h, jsonBEq_trans⟩

/-- C4: the end-to-end scenario — building the `main` literal yields an
`Object` of size 4 whose `"elements"` entry is the `Array` of the five
`Number`s `1.0, 2.0, 3.0, 43.0, 5.0` in order, and whose `"dummy"` entry
is an `Object` of size 1 mapping `"overview"` to `Boolean(true)`. -/
theorem example_scenario_desc :
    build descLit = .object descPairs
    ∧ descPairs.length = 4
    ∧ lookupJ "elements" descPairs = some (.array elemsJson)
    ∧ elemsJson.length = 5
    ∧ elemsJson = [.number (.finite 1), .number (.finite 2), .number (.finite 3),
        .number (.finite 43), .number (.finite 5)]
    ∧ lookupJ "dummy" descPairs = some (.object [("overview", .boolean true)])
    ∧ ([("overview", Json.boolean true)] : List (String × Json)).length = 1
    ∧ lookupJ "overview" [("overview", .boolean true)] = some (.boolean true) :=
  ⟨rfl, rfl, rfl, rfl, rfl, rfl, rfl, rfl⟩

/-- C5: the array rule builds a bracketed list of `n` sub-expressions to
an `Array` of length `n` whose `i`-th element is the recursively built
`i`-th sub-expression, preserving listed order exactly. -/
theorem array_rule_order_preserving :
    ∀ es : List Lit,
      build (.arrLit es) = .array (es.map build)
      ∧ (es.map build).length = es.length
      ∧ ∀ i : ℕ, (es.map build).get? i = (es.get? i).map build := by
  intro es
  refine ⟨?_, ?_, ?_⟩
  · rw [build_arrLit, buildList_eq_map]
  · exact List.length_map es build
  · intro i; exact List.get?_map build es i

/-- C6: the `null` production builds to the `Null` variant and to
nothing else — no other literal, scalar coercion included, ever builds
to `Null`. -/
theorem null_rule_exclusive :
    build .nullLit = Json.null ∧ ∀ e : Lit, build e = Json.null ↔ e = .nullLit := by
  refine ⟨rfl, ?_⟩
  intro e
  constructor
  · intro h
    cases e with
    | nullLit => rfl
    | boolLit b => rw [build_boolLit, Json.fromBool] at h; exact Json.noConfusion h
    | strLit s => rw [build_strLit, Json.fromStr] at h; exact Json.noConfusion h
    | intLit n => rw [build_intLit, Json.fromInt] at h; exact Json.noConfusion h
    | floatLit x => rw [build_floatLit, Json.fromF64] at h; exact Json.noConfusion h
    | arrLit es => rw [build_arrLit] at h; exact Json.noConfusion h
    | objLit ps => rw [build_objLit] at h; exact Json.noConfusion h
  · rintro rfl; rfl

/-- C7 counterexample: two object literals holding the same pairs in a
different order build to trees that are *not* equal, because the shared
value is NaN — refuting the claim's unconditional object half. -/
theorem object_reorder_fails_on_nan :
    ([("b", Lit.intLit 1), ("a", Lit.floatLit .nan)] : List (String × Lit)).Perm
      [("a", Lit.floatLit .nan), ("b", Lit.intLit 1)]
    ∧ jsonBEq (build (.objLit [("b", .intLit 1), ("a", .floatLit .nan)]))
        (build (.objLit [("a", .floatLit .nan), ("b", .intLit 1)])) = false :=
  ⟨List.Perm.swap _ _ _, rfl⟩

/-- C7 (amended): object literals holding the same pairs in a different
order build to equal trees provided keys are distinct and no value is
NaN; and array literals holding permuted elements build to unequal trees
whenever some position's built elements compare unequal. -/
theorem reorder_object_eq_array_ne :
    (∀ ps1 ps2 : List (String × Lit), ps1.Perm ps2 →
      (ps1.map Prod.fst).Nodup → litPairsNoNaN ps1 = true →
      jsonBEq (build (.objLit ps1)) (build (.objLit ps2)) = true)
    ∧ (∀ es1 es2 : List Lit, es1.Perm es2 →
        ∀ (i : ℕ) (v1 v2 : Json), (es1.map build).get? i = some v1 →
          (es2.map build).get? i = some v2 → jsonBEq v1 v2 = false →
          jsonBEq (build (.arrLit es1)) (build (.arrLit es2)) = false) := by
  constructor
  · intro ps1 ps2 hperm hnd hnn
    rw [build_objLit, build_objLit]
    have hnd1 : (keysOf (buildPairs ps1)).Nodup := by rw [keysOf_buildPairs]; exact hnd
    have hnd2 : (keysOf (buildPairs ps2)).Nodup := by
      rw [keysOf_buildPairs]
      exact ((hperm.map Prod.fst).nodup_iff).mp hnd
    have hpermb : (buildPairs ps1).Perm (buildPairs ps2) := by
      rw [buildPairs_eq_map, buildPairs_eq_map]
      exact hperm.map _
    rw [collectPairs_of_nodup _ hnd1, collectPairs_of_nodup _ hnd2]
    apply jsonBEq_object_perm _ _ hpermb hnd1
    · intro p hp
      rw [buildPairs_eq_map] at hp
      obtain ⟨q, hq, hqe⟩ := List.mem_map.mp hp
      have hpq : p.2 = build q.2 := by rw [← hqe]
      rw [hpq]
      exact build_wf q.2
    · intro p hp
      rw [buildPairs_eq_map] at hp
      obtain ⟨q, hq, hqe⟩ := List.mem_map.mp hp
      have hpq : p.2 = build q.2 := by rw [← hqe]
      rw [hpq]
      exact build_noNaN q.2 ((litPairsNoNaN_iff ps1).mp hnn q hq)
  · intro es1 es2 _ i v1 v2 h1 h2 hne
    cases hb : jsonBEq (build (.arrLit es1)) (build (.arrLit es2)) with
    | false => rfl
    | true =>
      rw [build_arrLit, build_arrLit, jsonBEq] at hb
      rw [buildList_eq_map, buildList_eq_map] at hb
      have hv := jsonListBEq_get? _ _ hb i v1 v2 h1 h2
      rw [hv] at hne
      exact hne

/-- C8: the empty array literal builds to an `Array` of length 0, and
the empty object literal builds to an `Object` of size 0. -/
theorem empty_literals_build :
    build (.arrLit []) = .array ([] : List Json)
    ∧ ([] : List Json).length = 0
    ∧ build (.objLit []) = .object ([] : List (String × Json))
    ∧ ([] : List (String × Json)).length = 0 :=
  ⟨rfl, rfl, rfl, rfl⟩

/-- C9: construction is deterministic and pure — the builder is a
function of the literal input alone, so two runs on the same input
produce the same tree. -/
theorem builder_deterministic_pure :
    (∀ e : Lit, build e = build e)
    ∧ (∀ e1 e2 : Lit, e1 = e2 → build e1 = build e2) :=
  ⟨fun _ => rfl, fun _ _ h => congrArg build h⟩

/-- C9 witness: two runs on the concrete `main` literal agree. -/
theorem builder_deterministic_pure_witness :
    descLit = descLit ∧ build descLit = build descLit :=
  ⟨rfl, builder_deterministic_pure.2 descLit descLit rfl⟩

/-- C10: for every integer with magnitude at most `2^53`, the numeric
coercion's cast to float64 is exact — the `Number` payload is exactly
the integer's value. -/
theorem int_cast_exact_small (n : ℤ) (h : n.natAbs ≤ 2 ^ 53) :
    Json.fromInt n = .number (.finite (n : ℚ)) := by
  rw [Json.fromInt, intToF64_exact n h]

/-- C10 witness: at the boundary input `2^53 = 9007199254740992` the
cast is exact. -/
theorem int_cast_exact_small_witness :
    ((9007199254740992 : ℤ)).natAbs ≤ 2 ^ 53
    ∧ Json.fromInt (9007199254740992 : ℤ)
        = .number (.finite ((9007199254740992 : ℤ) : ℚ)) :=
  ⟨by decide, int_cast_exact_small (9007199254740992 : ℤ) (by decide)⟩
